import Mathlib

/-!
Verification development for the delivery-route-optimizer engine.

The Python sources embedded here:
  * `src/src/algorithms/nearest_neighbour.py` — class `NearestNeighbourTSP`
    (`_distance`, `single_start_route`, `two_opt`, `_two_opt_swap`,
    `_total_route_distance`);
  * `src/src/algorithms/two_opt.py` — free functions `two_opt`,
    `_two_opt_swap`, `_route_distance` (same algorithm, distance passed
    as a callback);
  * `src/src/algorithms/brute_force_tsp.py` — class `BruteForceTSPSolver`
    (`_distance`, `solve`, `reset_stats`, `get_stats`);
  * `src/main.py` — class `RouteOptimizerApp`
    (`_run_algorithm_on_current_locations`, `run`).

Modelling choices, uniform through the file:
  * A location set is the list of keys of the Python dict
    `locations : Dict[str, Location]` (Python dicts preserve insertion
    order and have distinct keys).
  * The distance function `_distance` wraps `geopy.distance.geodesic`
    over the stored coordinates; geodesic returns a float in km.  We
    model it as an arbitrary function `dst : String → String → ℤ`:
    exact values from a linearly ordered additive group standing in for
    the IEEE-float kilometre values (the algorithms only ever add and
    compare distances, so every statement is parametric in the table).
    Facts that need a property of geodesic itself (distance of a point
    to itself is 0) take that property as an explicit hypothesis.
  * Python exceptions are modelled by `Option`/explicit error fields.
-/

/-- Sum of the edge lengths along a route, one edge per consecutive pair:
Python `_total_route_distance` / `_route_distance` /
the inner loop `for i in range(len(route) - 1): total += dist(route[i], route[i+1])`. -/
def totalDist (dst : String → String → ℤ) : List String → ℤ
  | [] => 0
  | [_] => 0
  | a :: b :: l => dst a b + totalDist dst (b :: l)

/-- Python `_two_opt_swap(route, i, k)` = `route[0:i] + list(reversed(route[i:k+1])) + route[k+1:]`. -/
def twoOptSwap (r : List String) (i k : ℕ) : List String :=
  r.take i ++ ((r.drop i).take (k + 1 - i)).reverse ++ r.drop (k + 1)

/-- The `(i, k)` cut points examined by one pass of `two_opt`, in scan order:
`for i in range(1, L - 2): for k in range(i + 1, L - 1)` for a route of length `L`. -/
def candidatePairs (L : ℕ) : List (ℕ × ℕ) :=
  (List.range' 1 (L - 3)).flatMap fun i =>
    (List.range' (i + 1) (L - 2 - i)).map fun k => (i, k)

/-- Scan the cut-point list in order and return the first strictly improving
2-opt move together with the swapped route: the body of the nested `for` loops
of `two_opt`, which accepts a candidate as soon as
`new_distance < best_distance` and breaks out of both loops. -/
def findImproveAux (dst : String → String → ℤ) (r : List String) :
    List (ℕ × ℕ) → Option ((ℕ × ℕ) × List String)
  | [] => none
  | p :: ps =>
      let r' := twoOptSwap r p.1 p.2
      if totalDist dst r' < totalDist dst r then some (p, r')
      else findImproveAux dst r ps

/-- One full scan of `two_opt`'s nested loops over the current best route. -/
def findImprove (dst : String → String → ℤ) (r : List String) :
    Option ((ℕ × ℕ) × List String) :=
  findImproveAux dst r (candidatePairs r.length)

theorem findImproveAux_some {dst r ps p r'}
    (h : findImproveAux dst r ps = some (p, r')) :
    r' = twoOptSwap r p.1 p.2 ∧ totalDist dst r' < totalDist dst r ∧ p ∈ ps := by
  induction ps with
  | nil => simp [findImproveAux] at h
  | cons q qs ih =>
    rw [findImproveAux] at h
    by_cases hlt : totalDist dst (twoOptSwap r q.1 q.2) < totalDist dst r
    · simp only [hlt, if_pos] at h
      obtain ⟨hq, hr⟩ := Prod.mk.injEq .. ▸ Option.some.injEq .. ▸ h
      subst hq; subst hr
      exact ⟨rfl, hlt, List.mem_cons_self _ _⟩
    · simp only [hlt, if_neg, not_false_iff] at h
      obtain ⟨h1, h2, h3⟩ := ih h
      exact ⟨h1, h2, List.mem_cons_of_mem _ h3⟩

theorem candidatePairs_fst_lt_snd {L : ℕ} {p : ℕ × ℕ}
    (h : p ∈ candidatePairs L) : p.1 < p.2 := by
  unfold candidatePairs at h
  obtain ⟨i, hi, hp⟩ := List.mem_flatMap.mp h
  obtain ⟨k, hk, hpk⟩ := List.mem_map.mp hp
  subst hpk
  exact Nat.lt_of_succ_le (List.mem_range'_1.mp hk).1

theorem twoOptSwap_perm (r : List String) {i k : ℕ} (hik : i ≤ k + 1) :
    (twoOptSwap r i k).Perm r := by
  have hdrop : (r.drop i).drop (k + 1 - i) = r.drop (k + 1) := by
    rw [List.drop_drop]
    congr 1
    omega
  have heq : twoOptSwap r i k =
      r.take i ++ (((r.drop i).take (k + 1 - i)).reverse ++ (r.drop i).drop (k + 1 - i)) := by
    unfold twoOptSwap
    rw [hdrop, List.append_assoc]
  have hsplit : r.take i ++ ((r.drop i).take (k + 1 - i) ++ (r.drop i).drop (k + 1 - i)) = r := by
    rw [List.take_append_drop, List.take_append_drop]
  rw [heq]
  conv_rhs => rw [← hsplit]
  exact List.Perm.append_left _ (List.Perm.append_right _ (List.reverse_perm _))

theorem findImprove_perm {dst r p r'} (h : findImprove dst r = some (p, r')) :
    r'.Perm r := by
  obtain ⟨h1, _, hmem⟩ := findImproveAux_some h
  have hik : p.1 ≤ p.2 + 1 := Nat.le_succ_of_le (le_of_lt (candidatePairs_fst_lt_snd hmem))
  exact h1 ▸ twoOptSwap_perm r hik

theorem findImprove_lt {dst r p r'} (h : findImprove dst r = some (p, r')) :
    totalDist dst r' < totalDist dst r :=
  (findImproveAux_some h).2.1

/-- Termination measure for the improvement loop: how many entries of
`r.permutations` are strictly shorter than `r` itself. -/
def improveMeasure (dst : String → String → ℤ) (r : List String) : ℕ :=
  r.permutations.countP fun x => decide (totalDist dst x < totalDist dst r)

theorem countP_lt_countP {α : Type} (l : List α) (p q : α → Bool)
    (hpq : ∀ x ∈ l, p x = true → q x = true) (a : α) (ha : a ∈ l)
    (hqa : q a = true) (hpa : ¬ p a = true) : l.countP p < l.countP q := by
  induction l with
  | nil => cases ha
  | cons b l ih =>
    rw [List.countP_cons, List.countP_cons]
    rcases List.mem_cons.mp ha with hab | ha'
    · subst hab
      have hcount : l.countP p ≤ l.countP q :=
        List.countP_mono_left fun x hx => hpq x (List.mem_cons_of_mem _ hx)
      rw [Bool.not_eq_true] at hpa
      simp [hpa, hqa]
      omega
    · have hb : (if p b = true then 1 else 0) ≤ (if q b = true then 1 else 0) := by
        by_cases hpb : p b = true
        · simp [hpb, hpq b (List.mem_cons_self _ _) hpb]
        · simp [hpb]
      have := ih (fun x hx => hpq x (List.mem_cons_of_mem _ hx)) ha'
      omega

theorem improveMeasure_lt {dst r p r'} (h : findImprove dst r = some (p, r')) :
    improveMeasure dst r' < improveMeasure dst r := by
  have hperm : r'.Perm r := findImprove_perm h
  have hlt : totalDist dst r' < totalDist dst r := findImprove_lt h
  have hpermutations : (r'.permutations).Perm r.permutations := hperm.permutations
  unfold improveMeasure
  rw [hpermutations.countP_eq]
  refine countP_lt_countP _ _ _ ?_ r' (List.mem_permutations.mpr hperm) ?_ ?_
  · intro x _ hx
    rw [decide_eq_true_eq] at hx ⊢
    exact lt_trans hx hlt
  · rw [decide_eq_true_eq]; exact hlt
  · rw [decide_eq_true_eq]; exact lt_irrefl _

/-- The `while improved:` loop of `two_opt`: repeatedly take the first
strictly improving 2-opt move (scanning from the beginning of the route)
until a full scan finds none. -/
def twoOptLoop (dst : String → String → ℤ) (r : List String) : List String :=
  match h : findImprove dst r with
  | none => r
  | some pr => twoOptLoop dst pr.2
termination_by improveMeasure dst r
decreasing_by exact improveMeasure_lt h

theorem twoOptLoop_none {dst r} (h : findImprove dst r = none) :
    twoOptLoop dst r = r := by
  rw [twoOptLoop, h]

theorem twoOptLoop_some {dst r p r'} (h : findImprove dst r = some (p, r')) :
    twoOptLoop dst r = twoOptLoop dst r' := by
  rw [twoOptLoop, h]

/-- Model of `NearestNeighbourTSP.two_opt` / the standalone `two_opt` of
`two_opt.py`: routes shorter than 4 entries are returned unchanged with
their distance recomputed; otherwise the improvement loop runs and the
final `best_route` is returned with `best_distance`, which the loop keeps
equal to `_total_route_distance(best_route)`. -/
def two_opt (dst : String → String → ℤ) (r : List String) : List String × ℤ :=
  if r.length < 4 then (r, totalDist dst r)
  else
    let br := twoOptLoop dst r
    (br, totalDist dst br)

theorem twoOptLoop_le (dst : String → String → ℤ) (r : List String) :
    totalDist dst (twoOptLoop dst r) ≤ totalDist dst r := by
  generalize hn : improveMeasure dst r = n
  induction n using Nat.strong_induction_on generalizing r with
  | _ n ih =>
    cases h : findImprove dst r with
    | none => rw [twoOptLoop_none h]
    | some pr =>
      obtain ⟨p, r'⟩ := pr
      rw [twoOptLoop_some h]
      have hmeas := improveMeasure_lt h
      have hrec := ih (improveMeasure dst r') (hn ▸ hmeas) r' rfl
      exact le_trans hrec (le_of_lt (findImprove_lt h))

theorem twoOptLoop_fixpoint (dst : String → String → ℤ) (r : List String) :
    findImprove dst (twoOptLoop dst r) = none := by
  generalize hn : improveMeasure dst r = n
  induction n using Nat.strong_induction_on generalizing r with
  | _ n ih =>
    cases h : findImprove dst r with
    | none => rw [twoOptLoop_none h]; exact h
    | some pr =>
      obtain ⟨p, r'⟩ := pr
      rw [twoOptLoop_some h]
      exact ih (improveMeasure dst r') (hn ▸ improveMeasure_lt h) r' rfl

theorem twoOptLoop_perm (dst : String → String → ℤ) (r : List String) :
    (twoOptLoop dst r).Perm r := by
  generalize hn : improveMeasure dst r = n
  induction n using Nat.strong_induction_on generalizing r with
  | _ n ih =>
    cases h : findImprove dst r with
    | none => rw [twoOptLoop_none h]
    | some pr =>
      obtain ⟨p, r'⟩ := pr
      rw [twoOptLoop_some h]
      exact List.Perm.trans
        (ih (improveMeasure dst r') (hn ▸ improveMeasure_lt h) r' rfl)
        (findImprove_perm h)

theorem twoOptLoop_length (dst : String → String → ℤ) (r : List String) :
    (twoOptLoop dst r).length = r.length :=
  (twoOptLoop_perm dst r).length_eq

/-- The inner selection loop of `single_start_route`:
`for name in unvisited: d = self._distance(current, name); if d < nearest_distance: ...`,
carried out on an accumulator `(nearest, nearest_distance)`. -/
def selGo (dst : String → String → ℤ) (current : String) :
    String × ℤ → List String → String × ℤ
  | acc, [] => acc
  | acc, x :: xs =>
      if dst current x < acc.2 then selGo dst current (x, dst current x) xs
      else selGo dst current acc xs

/-- Python `nearest = unvisited[0]; nearest_distance = self._distance(current, unvisited[0])`
followed by the scan over the whole `unvisited` list. -/
def selectNearest (dst : String → String → ℤ) (current : String) :
    List String → String
  | [] => current
  | u :: us => (selGo dst current (u, dst current u) (u :: us)).1

theorem selGo_mem (dst : String → String → ℤ) (current : String) :
    ∀ (xs : List String) (acc : String × ℤ),
      (selGo dst current acc xs).1 = acc.1 ∨ (selGo dst current acc xs).1 ∈ xs := by
  intro xs
  induction xs with
  | nil => intro acc; left; rfl
  | cons x xs ih =>
    intro acc
    rw [selGo]
    by_cases hlt : dst current x < acc.2
    · simp only [hlt, if_pos]
      rcases ih (x, dst current x) with h | h
      · right; exact List.mem_cons.mpr (Or.inl h)
      · right; exact List.mem_cons_of_mem _ h
    · simp only [hlt, if_neg, not_false_iff]
      rcases ih acc with h | h
      · left; exact h
      · right; exact List.mem_cons_of_mem _ h

theorem selectNearest_mem (dst : String → String → ℤ) (current : String)
    (u : String) (us : List String) :
    selectNearest dst current (u :: us) ∈ u :: us := by
  rw [selectNearest]
  rcases selGo_mem dst current (u :: us) (u, dst current u) with h | h
  · rw [h]; exact List.mem_cons_self _ _
  · exact h

/-- The `while unvisited:` loop of `single_start_route`, plus the final
`route.append(start); total_distance += self._distance(current, start)`.
Returns the part of the route strictly after `current`, together with the
distance accumulated from `current` on. -/
def nnVisit (dst : String → String → ℤ) (start : String) :
    String → List String → List String × ℤ
  | current, [] => ([start], dst current start)
  | current, u :: us =>
      let nearest := selectNearest dst current (u :: us)
      let rest := nnVisit dst start nearest ((u :: us).erase nearest)
      (nearest :: rest.1, dst current nearest + rest.2)
termination_by _ l => l.length
decreasing_by
  rw [List.length_erase_of_mem (selectNearest_mem dst current u us)]
  simp

/-- Model of `NearestNeighbourTSP.single_start_route`: the route starts at `start`,
greedily visits every other key of the location set, and closes the loop. -/
def single_start_route (dst : String → String → ℤ) (locs : List String)
    (start : String) : List String × ℤ :=
  let v := nnVisit dst start start (locs.filter fun n => n != start)
  (start :: v.1, v.2)

theorem nnVisit_spec (dst : String → String → ℤ) (start : String) :
    ∀ (l : List String) (current : String),
      ∃ p : List String, p.Perm l ∧ (nnVisit dst start current l).1 = p ++ [start] ∧
        (nnVisit dst start current l).2 = totalDist dst (current :: (p ++ [start])) := by
  intro l
  generalize hn : l.length = n
  induction n using Nat.strong_induction_on generalizing l with
  | _ n ih =>
    intro current
    cases l with
    | nil =>
      refine ⟨[], List.Perm.refl _, ?_, ?_⟩
      · rw [nnVisit]
        rfl
      · rw [nnVisit]
        simp [totalDist]
    | cons u us =>
      have hmem : selectNearest dst current (u :: us) ∈ u :: us :=
        selectNearest_mem dst current u us
      have hlen : ((u :: us).erase (selectNearest dst current (u :: us))).length < n := by
        rw [List.length_erase_of_mem hmem, ← hn]
        simp
      obtain ⟨p', hperm', h1', h2'⟩ :=
        ih _ hlen ((u :: us).erase (selectNearest dst current (u :: us))) rfl
          (selectNearest dst current (u :: us))
      refine ⟨selectNearest dst current (u :: us) :: p', ?_, ?_, ?_⟩
      · exact (hperm'.cons _).trans (List.perm_cons_erase hmem).symm
      · rw [nnVisit, h1']
        rfl
      · rw [nnVisit]
        simp only [List.cons_append, totalDist]
        rw [h2']
        rfl

/-- The counters of `BruteForceTSPSolver` as set by `reset_stats` (which
`solve` calls first) and read back by `get_stats`.  `__init__` initializes a
misspelled `permutations_texted` attribute, but `reset_stats` runs before any
counting, so the observable counters are exactly these two fields. -/
structure BFStats where
  distance_calls : ℕ
  permutations_tested : ℕ
deriving DecidableEq

/-- Model of `BruteForceTSPSolver._distance`: returns the geodesic distance and
increments `self.distance_calls` by one. -/
def bf_distance (dst : String → String → ℤ) (s : BFStats) (a b : String) :
    ℤ × BFStats :=
  (dst a b, { s with distance_calls := s.distance_calls + 1 })

/-- The inner loop of `solve`:
`for i in range(len(route) - 1): total += self._distance(route[i], route[i + 1])`. -/
def bfRouteTotal (dst : String → String → ℤ) :
    List String → BFStats → ℤ × BFStats
  | [], s => (0, s)
  | [_], s => (0, s)
  | a :: b :: l, s =>
      let ds := bf_distance dst s a b
      let rest := bfRouteTotal dst (b :: l) ds.2
      (ds.1 + rest.1, rest.2)

/-- The `for perm in permutations(others):` loop of `solve`, threading
`best_route`/`best_distance` (the initial `best_distance = float("inf")` is
modelled by the `none` accumulator, which accepts the first total
unconditionally) and the stats counters.  Note that the loop body never
touches `permutations_tested`. -/
def bfLoop (dst : String → String → ℤ) (start : String) :
    List (List String) → Option (List String × ℤ) → BFStats →
      Option (List String × ℤ) × BFStats
  | [], best, s => (best, s)
  | perm :: ps, none, s =>
      bfLoop dst start ps
        (some (start :: (perm ++ [start]), (bfRouteTotal dst (start :: (perm ++ [start])) s).1))
        (bfRouteTotal dst (start :: (perm ++ [start])) s).2
  | perm :: ps, some (br, bd), s =>
      bfLoop dst start ps
        (if (bfRouteTotal dst (start :: (perm ++ [start])) s).1 < bd then
          some (start :: (perm ++ [start]), (bfRouteTotal dst (start :: (perm ++ [start])) s).1)
         else some (br, bd))
        (bfRouteTotal dst (start :: (perm ++ [start])) s).2

/-- Model of `BruteForceTSPSolver.solve`: resets the stats, raises `ValueError` when
`start` is not a key of the location set (modelled by a `none` result), and
otherwise minimizes the closed-route total over all permutations of the other
keys.  (`List.permutations'` stands in for `itertools.permutations`: both
enumerate every permutation exactly once for distinct inputs, differing only
in enumeration order, which matters only for exact ties; no theorem below
depends on it.) -/
def solve (dst : String → String → ℤ) (locs : List String) (start : String) :
    Option (List String × ℤ) × BFStats :=
  if start ∈ locs then
    bfLoop dst start ((locs.filter fun n => n != start).permutations') none ⟨0, 0⟩
  else (none, ⟨0, 0⟩)

theorem bfRouteTotal_fst (dst : String → String → ℤ) :
    ∀ (r : List String) (s : BFStats), (bfRouteTotal dst r s).1 = totalDist dst r
  | [], _ => rfl
  | [_], _ => rfl
  | a :: b :: l, s => by
      rw [bfRouteTotal, totalDist]
      simp only [bf_distance]
      rw [bfRouteTotal_fst dst (b :: l)]

theorem bfRouteTotal_tested (dst : String → String → ℤ) :
    ∀ (r : List String) (s : BFStats),
      (bfRouteTotal dst r s).2.permutations_tested = s.permutations_tested
  | [], _ => rfl
  | [_], _ => rfl
  | a :: b :: l, s => by
      rw [bfRouteTotal]
      simp only [bf_distance]
      rw [bfRouteTotal_tested dst (b :: l)]

theorem bfLoop_tested (dst : String → String → ℤ) (start : String) :
    ∀ (ps : List (List String)) (best : Option (List String × ℤ)) (s : BFStats),
      (bfLoop dst start ps best s).2.permutations_tested = s.permutations_tested
  | [], _, _ => rfl
  | perm :: ps, none, s => by
      rw [bfLoop, bfLoop_tested dst start ps, bfRouteTotal_tested]
  | perm :: ps, some (br, bd), s => by
      rw [bfLoop, bfLoop_tested dst start ps, bfRouteTotal_tested]

theorem bfLoop_le (dst : String → String → ℤ) (start : String) :
    ∀ (ps : List (List String)) (best : Option (List String × ℤ)) (s : BFStats)
      (r : List String) (bd : ℤ),
      (bfLoop dst start ps best s).1 = some (r, bd) →
      (∀ perm ∈ ps, bd ≤ totalDist dst (start :: (perm ++ [start]))) ∧
      (∀ r0 bd0, best = some (r0, bd0) → bd ≤ bd0) := by
  intro ps
  induction ps with
  | nil =>
    intro best s r bd h
    rw [bfLoop] at h
    refine ⟨fun perm hperm => absurd hperm (List.not_mem_nil _), ?_⟩
    intro r0 bd0 hbest
    rw [hbest] at h
    cases h
    exact le_refl _
  | cons perm ps ih =>
    intro best s r bd h
    cases best with
    | none =>
      rw [bfLoop] at h
      obtain ⟨hps, hbest'⟩ := ih _ _ r bd h
      have hts : bd ≤ (bfRouteTotal dst (start :: (perm ++ [start])) s).1 :=
        hbest' _ _ rfl
      rw [bfRouteTotal_fst] at hts
      refine ⟨?_, fun r0 bd0 hcontra => by cases hcontra⟩
      intro q hq
      rcases List.mem_cons.mp hq with hq | hq
      · rw [hq]; exact hts
      · exact hps q hq
    | some pr =>
      obtain ⟨br0, bd0⟩ := pr
      rw [bfLoop] at h
      by_cases hlt : (bfRouteTotal dst (start :: (perm ++ [start])) s).1 < bd0
      · simp only [hlt, if_pos] at h
        obtain ⟨hps, hbest'⟩ := ih _ _ r bd h
        have hts : bd ≤ (bfRouteTotal dst (start :: (perm ++ [start])) s).1 :=
          hbest' _ _ rfl
        constructor
        · intro q hq
          rcases List.mem_cons.mp hq with hq | hq
          · rw [hq, ← bfRouteTotal_fst dst _ s]; exact hts
          · exact hps q hq
        · intro r0 bd0' hbest
          cases hbest
          exact le_trans hts (le_of_lt hlt)
      · simp only [hlt, if_neg, not_false_iff] at h
        obtain ⟨hps, hbest'⟩ := ih _ _ r bd h
        have hbd0 : bd ≤ bd0 := hbest' _ _ rfl
        constructor
        · intro q hq
          rcases List.mem_cons.mp hq with hq | hq
          · rw [hq, ← bfRouteTotal_fst dst _ s]
            exact le_trans hbd0 (le_of_not_lt hlt)
          · exact hps q hq
        · intro r0 bd0' hbest
          cases hbest
          exact hbd0

theorem bfLoop_isSome (dst : String → String → ℤ) (start : String) :
    ∀ (ps : List (List String)) (best : Option (List String × ℤ)) (s : BFStats),
      (ps ≠ [] ∨ best.isSome) → (bfLoop dst start ps best s).1.isSome := by
  intro ps
  induction ps with
  | nil =>
    intro best s h
    rw [bfLoop]
    rcases h with h | h
    · exact absurd rfl h
    · exact h
  | cons perm ps ih =>
    intro best s _
    cases best with
    | none =>
      rw [bfLoop]
      exact ih _ _ (Or.inr rfl)
    | some pr =>
      obtain ⟨br0, bd0⟩ := pr
      rw [bfLoop]
      apply ih
      right
      by_cases hlt : (bfRouteTotal dst (start :: (perm ++ [start])) s).1 < bd0
      · simp [hlt]
      · simp [hlt]

/-- The result envelope built by
`RouteOptimizerApp._run_algorithm_on_current_locations` (`src/main.py`):
`{"mode": mode, "route": None, "distance": None, "exec_time": None,
"error": None, "stats": {}}`.  Wall-clock `exec_time` is not modelled;
the untouched-`stats` dict `{}` is modelled by `none`. -/
structure SolveResult where
  mode : String
  route : Option (List String)
  distance : Option ℤ
  error : Option String
  stats : Option BFStats
deriving DecidableEq

/-- Model of `RouteOptimizerApp._run_algorithm_on_current_locations(mode)` with the
hardcoded `start = "Depot"`.  Modelling notes, each traceable to the source:
  * the `try:` block first raises `ValueError` when `"Depot"` is missing;
  * for modes `"nn"` and `"nn_2opt"` the very first statement on the solver,
    `algo.reset_stats()`, raises `AttributeError` because class
    `NearestNeighbourTSP` defines no `reset_stats` (nor `nearest_neighbour`
    nor `get_stats`) method; `except Exception as e` catches it and stores
    `str(e)` in `result["error"]`;
  * for mode `"bf"` the solver runs and its route/distance/stats are stored;
  * any other mode raises `ValueError(f"Unknown algorithm mode: {mode}")`;
  * `self.map_renderer.render_route` only draws the map (it catches its own
    network errors and touches no field of `result`), so it is not modelled. -/
def runAlgorithm (dst : String → String → ℤ) (locs : List String)
    (mode : String) : SolveResult :=
  if ("Depot") ∈ locs then
    if mode = "nn" ∨ mode = "nn_2opt" then
      { mode := mode, route := none, distance := none,
        error := some ("'NearestNeighbourTSP' object has no attribute 'reset_stats'"),
        stats := none }
    else if mode = "bf" then
      match solve dst locs ("Depot") with
      | (some (r, d), st) =>
          { mode := mode, route := some r, distance := some d,
            error := none, stats := some st }
      | (none, _) =>
          { mode := mode, route := none, distance := none,
            error := some ("Start node 'Depot' not found."), stats := none }
    else
      { mode := mode, route := none, distance := none,
        error := some ("Unknown algorithm mode: " ++ mode), stats := none }
  else
    { mode := mode, route := none, distance := none,
      error := some ("Locations must contain a 'Depot' node."), stats := none }

/-- Trace of one scan of `two_opt`'s nested loops: every `(i, k)` candidate
examined, in order, paired with whether it was accepted (acceptance breaks
out of both loops, ending the scan). -/
def scanPairs (dst : String → String → ℤ) (r : List String) :
    List (ℕ × ℕ) → List ((ℕ × ℕ) × Bool)
  | [] => []
  | p :: ps =>
      if totalDist dst (twoOptSwap r p.1 p.2) < totalDist dst r then [(p, true)]
      else (p, false) :: scanPairs dst r ps

/-- Full trace of the candidates examined by `two_opt`'s `while improved:`
loop: after each accepted move the `while` loop re-enters and the scan starts
again from the first cut pair of the (swapped) route. -/
def twoOptTrace (dst : String → String → ℤ) (r : List String) :
    List ((ℕ × ℕ) × Bool) :=
  match h : findImprove dst r with
  | none => scanPairs dst r (candidatePairs r.length)
  | some pr => scanPairs dst r (candidatePairs r.length) ++ twoOptTrace dst pr.2
termination_by improveMeasure dst r
decreasing_by exact improveMeasure_lt h

theorem twoOptTrace_none {dst r} (h : findImprove dst r = none) :
    twoOptTrace dst r = scanPairs dst r (candidatePairs r.length) := by
  rw [twoOptTrace, h]

theorem twoOptTrace_some {dst r p r'} (h : findImprove dst r = some (p, r')) :
    twoOptTrace dst r = scanPairs dst r (candidatePairs r.length) ++ twoOptTrace dst r' := by
  rw [twoOptTrace, h]

/-- Relation between consecutive examined candidates: once a candidate is
accepted, the very next candidate examined (if any) is the first cut pair
`(1, 2)` — i.e. the scan restarts from the beginning of the route. -/
def restartRel (a b : (ℕ × ℕ) × Bool) : Prop := a.2 = true → b.1 = (1, 2)

instance : DecidableRel restartRel := fun a b =>
  inferInstanceAs (Decidable (a.2 = true → b.1 = (1, 2)))

/-- Relation asserted by the claim instead: after an acceptance at `(i, k)`
the scan would resume at the same `i`. -/
def sameCutRel (a b : (ℕ × ℕ) × Bool) : Prop := a.2 = true → b.1.1 = a.1.1

instance : DecidableRel sameCutRel := fun a b =>
  inferInstanceAs (Decidable (a.2 = true → b.1.1 = a.1.1))

theorem scanPairs_false_of_none {dst r} :
    ∀ {ps : List (ℕ × ℕ)}, findImproveAux dst r ps = none →
      ∀ e ∈ scanPairs dst r ps, e.2 = false := by
  intro ps
  induction ps with
  | nil => intro _ e he; cases he
  | cons p ps ih =>
    intro h e he
    rw [findImproveAux] at h
    rw [scanPairs] at he
    by_cases hlt : totalDist dst (twoOptSwap r p.1 p.2) < totalDist dst r
    · simp only [hlt, if_pos] at h
      cases h
    · simp only [hlt, if_neg, not_false_iff] at h he
      rcases List.mem_cons.mp he with he | he
      · rw [he]
      · exact ih h e he

theorem scanPairs_concat_of_some {dst r} :
    ∀ {ps : List (ℕ × ℕ)} {p r'}, findImproveAux dst r ps = some (p, r') →
      ∃ pre, scanPairs dst r ps = pre ++ [(p, true)] ∧ ∀ e ∈ pre, e.2 = false := by
  intro ps
  induction ps with
  | nil => intro p r' h; cases h
  | cons q qs ih =>
    intro p r' h
    rw [findImproveAux] at h
    rw [scanPairs]
    by_cases hlt : totalDist dst (twoOptSwap r q.1 q.2) < totalDist dst r
    · simp only [hlt, if_pos] at h ⊢
      obtain ⟨hq, _⟩ := Prod.mk.injEq .. ▸ Option.some.injEq .. ▸ h
      exact ⟨[], by rw [hq]; rfl, fun e he => absurd he (List.not_mem_nil _)⟩
    · simp only [hlt, if_neg, not_false_iff] at h ⊢
      obtain ⟨pre, hpre, hfalse⟩ := ih h
      refine ⟨(q, false) :: pre, by rw [hpre]; rfl, ?_⟩
      intro e he
      rcases List.mem_cons.mp he with he | he
      · rw [he]
      · exact hfalse e he

theorem chain'_restartRel_of_false {l : List ((ℕ × ℕ) × Bool)}
    (hf : ∀ e ∈ l, e.2 = false) : List.Chain' restartRel l := by
  induction l with
  | nil => exact List.chain'_nil
  | cons a t ih =>
    cases t with
    | nil => exact List.chain'_singleton a
    | cons b t' =>
      refine List.Chain'.cons ?_ (ih fun e he => hf e (List.mem_cons_of_mem _ he))
      intro htrue
      rw [hf a (List.mem_cons_self _ _)] at htrue
      cases htrue

theorem chain'_restartRel_concat {pre : List ((ℕ × ℕ) × Bool)} {x : (ℕ × ℕ) × Bool}
    (hf : ∀ e ∈ pre, e.2 = false) : List.Chain' restartRel (pre ++ [x]) := by
  refine List.chain'_append.mpr
    ⟨chain'_restartRel_of_false hf, List.chain'_singleton x, ?_⟩
  intro a ha y _
  obtain ⟨hne, heq⟩ := List.mem_getLast?_eq_getLast ha
  intro htrue
  rw [heq] at htrue
  rw [hf _ (List.getLast_mem hne)] at htrue
  cases htrue

theorem candidatePairs_head {L : ℕ} (h4 : 4 ≤ L) :
    ∃ t, candidatePairs L = (1, 2) :: t := by
  have h3 : L - 3 = (L - 4) + 1 := by omega
  have h2 : L - 2 - 1 = (L - 4) + 1 := by omega
  rw [candidatePairs, h3, List.range'_succ, List.flatMap_cons, h2, List.range'_succ,
    List.map_cons, List.cons_append]
  exact ⟨_, rfl⟩

theorem findImprove_some_length {dst r p r'}
    (h : findImprove dst r = some (p, r')) : 4 ≤ r.length := by
  obtain ⟨_, _, hmem⟩ := findImproveAux_some h
  unfold candidatePairs at hmem
  obtain ⟨i, hi, _⟩ := List.mem_flatMap.mp hmem
  have := List.mem_range'_1.mp hi
  omega

theorem twoOptTrace_head {dst : String → String → ℤ} {r : List String}
    (h4 : 4 ≤ r.length) : ∃ b t, twoOptTrace dst r = ((1, 2), b) :: t := by
  obtain ⟨tp, hp⟩ := candidatePairs_head h4
  cases h : findImprove dst r with
  | none =>
    rw [twoOptTrace_none h, hp, scanPairs]
    by_cases hlt : totalDist dst (twoOptSwap r 1 2) < totalDist dst r
    · simp only [hlt, if_pos]
      exact ⟨true, [], rfl⟩
    · simp only [hlt, if_neg, not_false_iff]
      exact ⟨false, _, rfl⟩
  | some pr =>
    obtain ⟨p2, r2⟩ := pr
    rw [twoOptTrace_some h, hp, scanPairs]
    by_cases hlt : totalDist dst (twoOptSwap r 1 2) < totalDist dst r
    · simp only [hlt, if_pos]
      exact ⟨true, _, rfl⟩
    · simp only [hlt, if_neg, not_false_iff]
      exact ⟨false, _, rfl⟩

theorem filter_ne_length {locs : List String} {start : String}
    (hnodup : locs.Nodup) (hstart : start ∈ locs) :
    (locs.filter fun n => n != start).length + 1 = locs.length := by
  have hperm := (List.perm_cons_erase hstart).filter (fun n => n != start)
  have hcons : (start :: locs.erase start).filter (fun n => n != start) =
      (locs.erase start).filter (fun n => n != start) := by
    simp
  have herase : (locs.erase start).filter (fun n => n != start) = locs.erase start := by
    refine List.filter_eq_self.mpr ?_
    intro a ha
    exact bne_iff_ne.mpr (hnodup.mem_erase_iff.mp ha).1
  rw [hcons, herase] at hperm
  rw [hperm.length_eq, List.length_erase_of_mem hstart]
  have : 0 < locs.length := List.length_pos.mpr (List.ne_nil_of_mem hstart)
  omega

/-- C1: the total distance returned by `BruteForceTSPSolver.solve` is at most
the total distance returned by `NearestNeighbourTSP.single_start_route` on
the same location set and start, because `solve` retains the minimum total
over every permutation of the non-start identifiers and the greedy visiting
order is one such permutation. -/
theorem bf_solve_le_nearest_neighbour (dst : String → String → ℤ)
    (locs : List String) (start : String) (hstart : start ∈ locs) :
    ∃ br bd, (solve dst locs start).1 = some (br, bd) ∧
      bd ≤ (single_start_route dst locs start).2 := by
  have hne : (locs.filter fun n => n != start).permutations' ≠ [] :=
    List.ne_nil_of_mem (List.mem_permutations'.mpr (List.Perm.refl _))
  have hsome := bfLoop_isSome dst start
    ((locs.filter fun n => n != start).permutations') none ⟨0, 0⟩ (Or.inl hne)
  obtain ⟨pr, hpr⟩ := Option.isSome_iff_exists.mp hsome
  obtain ⟨br, bd⟩ := pr
  obtain ⟨hall, _⟩ := bfLoop_le dst start _ none ⟨0, 0⟩ br bd hpr
  obtain ⟨p, hperm, h1, h2⟩ := nnVisit_spec dst start (locs.filter fun n => n != start) start
  have hmem : p ∈ (locs.filter fun n => n != start).permutations' :=
    List.mem_permutations'.mpr hperm
  refine ⟨br, bd, ?_, ?_⟩
  · rw [solve, if_pos hstart]
    exact hpr
  · have : (single_start_route dst locs start).2 =
        totalDist dst (start :: (p ++ [start])) := by
      simp only [single_start_route]
      exact h2
    rw [this]
    exact hall p hmem

theorem bf_solve_le_nearest_neighbour_witness :
    "Depot" ∈ ["Depot", "A"] ∧
    ∃ br bd, (solve (fun x y => if x = y then 0 else 5) ["Depot", "A"] "Depot").1 = some (br, bd) ∧
      bd ≤ (single_start_route (fun x y => if x = y then 0 else 5) ["Depot", "A"] "Depot").2 :=
  ⟨by decide,
   bf_solve_le_nearest_neighbour (fun x y => if x = y then 0 else 5) ["Depot", "A"] "Depot"
     (by decide)⟩

/-- C2: on a location set of `n + 1` distinct identifiers containing `start`,
the route built by `single_start_route` has length `n + 2`, begins and ends
with `start`, and every other identifier of the set appears exactly once
strictly between the endpoints. -/
theorem nn_route_closed_loop (dst : String → String → ℤ) (locs : List String)
    (start : String) (hstart : start ∈ locs) (hnodup : locs.Nodup) :
    (single_start_route dst locs start).1.length = locs.length + 1 ∧
    (single_start_route dst locs start).1.head? = some start ∧
    (single_start_route dst locs start).1.getLast? = some start ∧
    ∀ x ∈ locs, x ≠ start →
      (((single_start_route dst locs start).1.drop 1).dropLast).count x = 1 := by
  obtain ⟨p, hperm, h1, _⟩ := nnVisit_spec dst start (locs.filter fun n => n != start) start
  have hr : (single_start_route dst locs start).1 = start :: (p ++ [start]) := by
    simp only [single_start_route]
    rw [h1]
  refine ⟨?_, ?_, ?_, ?_⟩
  · rw [hr]
    simp only [List.length_cons, List.length_append, List.length_nil]
    rw [hperm.length_eq]
    have := filter_ne_length hnodup hstart
    omega
  · rw [hr]
    rfl
  · rw [hr, ← List.cons_append, List.getLast?_concat]
  · intro x hx hxne
    rw [hr]
    simp only [List.drop_succ_cons, List.drop_zero, List.dropLast_concat]
    rw [hperm.count_eq]
    refine List.count_eq_one_of_mem (hnodup.filter _) ?_
    exact List.mem_filter.mpr ⟨hx, bne_iff_ne.mpr hxne⟩

theorem nn_route_closed_loop_witness :
    "Depot" ∈ ["Depot", "A", "B"] ∧ ["Depot", "A", "B"].Nodup ∧
    ((single_start_route (fun _ _ => 1) ["Depot", "A", "B"] "Depot").1.length =
        ["Depot", "A", "B"].length + 1 ∧
      (single_start_route (fun _ _ => 1) ["Depot", "A", "B"] "Depot").1.head? = some ("Depot") ∧
      (single_start_route (fun _ _ => 1) ["Depot", "A", "B"] "Depot").1.getLast? = some ("Depot") ∧
      ∀ x ∈ ["Depot", "A", "B"], x ≠ "Depot" →
        (((single_start_route (fun _ _ => 1) ["Depot", "A", "B"] "Depot").1.drop 1).dropLast).count x = 1) :=
  ⟨by decide, by decide,
   nn_route_closed_loop (fun _ _ => 1) ["Depot", "A", "B"] "Depot" (by decide) (by decide)⟩

/-- C3: the total distance returned by the 2-opt refiner is never larger than
the total distance of its input route; in particular refining the greedy
route (`nn_2opt`) is never worse than the greedy route (`nn`). -/
theorem two_opt_le (dst : String → String → ℤ) :
    (∀ r : List String, (two_opt dst r).2 ≤ totalDist dst r) ∧
    (∀ (locs : List String) (start : String),
      (two_opt dst (single_start_route dst locs start).1).2 ≤
        (single_start_route dst locs start).2) := by
  have hmain : ∀ r : List String, (two_opt dst r).2 ≤ totalDist dst r := by
    intro r
    rw [two_opt]
    by_cases hlen : r.length < 4
    · rw [if_pos hlen]
    · rw [if_neg hlen]
      exact twoOptLoop_le dst r
  refine ⟨hmain, ?_⟩
  intro locs start
  obtain ⟨p, hperm, h1, h2⟩ := nnVisit_spec dst start (locs.filter fun n => n != start) start
  have hroute : (single_start_route dst locs start).1 = start :: (p ++ [start]) := by
    simp only [single_start_route]
    rw [h1]
  have hdist : (single_start_route dst locs start).2 =
      totalDist dst (start :: (p ++ [start])) := by
    simp only [single_start_route]
    exact h2
  calc (two_opt dst (single_start_route dst locs start).1).2
      ≤ totalDist dst (single_start_route dst locs start).1 := hmain _
    _ = (single_start_route dst locs start).2 := by rw [hroute, hdist]

/-- C10: the 2-opt refiner is idempotent — applying `two_opt` to its own
output returns exactly the same route and distance (the output is a fixed
point: no 2-opt move of the refined route is strictly improving). -/
theorem two_opt_idempotent (dst : String → String → ℤ) (r : List String) :
    two_opt dst (two_opt dst r).1 = two_opt dst r := by
  by_cases hlen : r.length < 4
  · have h1 : two_opt dst r = (r, totalDist dst r) := by rw [two_opt, if_pos hlen]
    rw [h1]
    exact h1
  · have h2 : two_opt dst r = (twoOptLoop dst r, totalDist dst (twoOptLoop dst r)) := by
      rw [two_opt, if_neg hlen]
    have hlen2 : ¬ (twoOptLoop dst r).length < 4 := by
      rw [twoOptLoop_length]
      exact hlen
    have hfix : twoOptLoop dst (twoOptLoop dst r) = twoOptLoop dst r :=
      twoOptLoop_none (twoOptLoop_fixpoint dst r)
    rw [h2]
    show two_opt dst (twoOptLoop dst r) = _
    rw [two_opt, if_neg hlen2, hfix]

/-- Concrete distance table on the two-key location set `["Depot", "A"]`,
standing in for the geodesic values (any symmetric table works). -/
def dTwo (x y : String) : ℤ := if x = y then 0 else 5

/-- C4 (evaluation): on the single-customer set `{Depot, A}` only mode `"bf"`
returns the route `[Depot, A, Depot]`; modes `"nn"` and `"nn_2opt"` hit the
missing `reset_stats` attribute of `NearestNeighbourTSP` inside the facade's
`try:` block and come back with `error` set and `route = None`. -/
theorem facade_single_customer :
    (runAlgorithm dTwo ["Depot", "A"] "bf").route = some ["Depot", "A", "Depot"] ∧
    (runAlgorithm dTwo ["Depot", "A"] "bf").distance = some 10 ∧
    (runAlgorithm dTwo ["Depot", "A"] "bf").error = none ∧
    (runAlgorithm dTwo ["Depot", "A"] "nn").route = none ∧
    (runAlgorithm dTwo ["Depot", "A"] "nn").error =
      some ("'NearestNeighbourTSP' object has no attribute 'reset_stats'") ∧
    (runAlgorithm dTwo ["Depot", "A"] "nn_2opt").route = none ∧
    (runAlgorithm dTwo ["Depot", "A"] "nn_2opt").error =
      some ("'NearestNeighbourTSP' object has no attribute 'reset_stats'") := by
  decide

/-- Concrete symmetric distance table on `{D, a, b, c}` whose first improving
2-opt move on the route `[D, a, b, c, D]` is at the cut pair `(2, 3)`. -/
def dFour (x y : String) : ℤ :=
  if x = y then 0
  else if (x = "D" ∧ y = "a") ∨ (x = "a" ∧ y = "D") then 1
  else if (x = "a" ∧ y = "b") ∨ (x = "b" ∧ y = "a") then 10
  else if (x = "b" ∧ y = "c") ∨ (x = "c" ∧ y = "b") then 1
  else if (x = "c" ∧ y = "D") ∨ (x = "D" ∧ y = "c") then 10
  else if (x = "a" ∧ y = "c") ∨ (x = "c" ∧ y = "a") then 2
  else if (x = "D" ∧ y = "b") ∨ (x = "b" ∧ y = "D") then 3
  else 0

/-- C5 (counterexample): in the examined-candidates trace of `two_opt` on
`[D, a, b, c, D]` under `dFour`, the move at `(2, 3)` is accepted but the
next candidate examined is `(1, 2)`, not a pair with `i = 2`: the scan does
NOT restart from its current `i` within the same pass. -/
theorem two_opt_restart_counterexample :
    ¬ List.Chain' sameCutRel (twoOptTrace dFour ["D", "a", "b", "c", "D"]) := by
  have h1 : findImprove dFour ["D", "a", "b", "c", "D"] =
      some ((2, 3), ["D", "a", "c", "b", "D"]) := by decide
  have h2 : findImprove dFour ["D", "a", "c", "b", "D"] = none := by decide
  have htr : twoOptTrace dFour ["D", "a", "b", "c", "D"] =
      [((1, 2), false), ((1, 3), false), ((2, 3), true),
       ((1, 2), false), ((1, 3), false), ((2, 3), false)] := by
    rw [twoOptTrace_some h1, twoOptTrace_none h2]
    decide
  rw [htr]
  intro hch
  simp [List.chain'_cons, sameCutRel] at hch

/-- C5 (amended): when a strictly improving candidate is found it is accepted
immediately (the accepted route is exactly the 2-opt swap and is strictly
shorter), and after each acceptance the scan restarts from the first cut
pair `(1, 2)` of the new route in a fresh pass — both nested loops are
exited — rather than from the current `i` within the same pass. -/
theorem two_opt_first_improvement_restart (dst : String → String → ℤ)
    (r : List String) :
    List.Chain' restartRel (twoOptTrace dst r) ∧
    ∀ p r', findImprove dst r = some (p, r') →
      r' = twoOptSwap r p.1 p.2 ∧ totalDist dst r' < totalDist dst r := by
  constructor
  · generalize hn : improveMeasure dst r = n
    induction n using Nat.strong_induction_on generalizing r with
    | _ n ih =>
      cases h : findImprove dst r with
      | none =>
        rw [twoOptTrace_none h]
        have h' : findImproveAux dst r (candidatePairs r.length) = none := h
        exact chain'_restartRel_of_false (scanPairs_false_of_none h')
      | some pr =>
        obtain ⟨p, r'⟩ := pr
        rw [twoOptTrace_some h]
        have h' : findImproveAux dst r (candidatePairs r.length) = some (p, r') := h
        obtain ⟨pre, hsc, hfalse⟩ := scanPairs_concat_of_some h'
        rw [hsc]
        refine List.chain'_append.mpr
          ⟨chain'_restartRel_concat hfalse,
           ih _ (hn ▸ improveMeasure_lt h) r' rfl, ?_⟩
        intro x hx y hy
        have h4 : 4 ≤ r'.length := by
          rw [(findImprove_perm h).length_eq]
          exact findImprove_some_length h
        obtain ⟨b, t, htr⟩ := @twoOptTrace_head dst r' h4
        rw [htr] at hy
        rw [List.getLast?_concat, Option.mem_some_iff] at hx
        rw [List.head?_cons, Option.mem_some_iff] at hy
        subst hx
        subst hy
        exact fun _ => rfl
  · intro p r' h
    obtain ⟨h1, h2, _⟩ := findImproveAux_some h
    exact ⟨h1, h2⟩

theorem two_opt_first_improvement_restart_witness :
    ["D", "a", "c", "b", "D"] = twoOptSwap ["D", "a", "b", "c", "D"] 2 3 ∧
    totalDist dFour ["D", "a", "c", "b", "D"] <
      totalDist dFour ["D", "a", "b", "c", "D"] :=
  (two_opt_first_improvement_restart dFour ["D", "a", "b", "c", "D"]).2
    (2, 3) ["D", "a", "c", "b", "D"] (by decide)

/-- C6 (evaluation): the brute-force solver's `distance_calls` counter counts
its `_distance` invocations (two edges for the single permutation of the
two-key set), but for the nearest-neighbour solver and the 2-opt refiner no
counter exists at all: the facade's `algo.reset_stats()` call raises
`AttributeError` before any stats can be collected, so mode `"nn_2opt"`
returns an error and no stats. -/
theorem facade_nn_stats_unavailable :
    (runAlgorithm dTwo ["Depot", "A"] "nn_2opt").stats = none ∧
    (runAlgorithm dTwo ["Depot", "A"] "nn_2opt").error.isSome = true ∧
    (runAlgorithm dTwo ["Depot", "A"] "bf").stats =
      some { distance_calls := 2, permutations_tested := 0 } := by
  decide

/-- C7 (evaluation): `BruteForceTSPSolver.solve` never increments
`permutations_tested` — `reset_stats` zeroes it and the permutation loop
never touches it (the `self.permutations_tested += 1` statement simply does
not exist in `solve`; `__init__` even initializes a misspelled
`permutations_texted`).  Hence after any solve, `get_stats` reports
`permutations_tested = 0`, not `n!`. -/
theorem bf_permutations_tested_zero (dst : String → String → ℤ)
    (locs : List String) (start : String) :
    (solve dst locs start).2.permutations_tested = 0 := by
  rw [solve]
  by_cases h : start ∈ locs
  · rw [if_pos h]
    rw [bfLoop_tested]
  · rw [if_neg h]

/-- C8: every call to the facade returns exactly one of a route and an error,
never both and never neither; all solver failures are caught inside the
`try:` block and surfaced through the `error` field. -/
theorem facade_route_xor_error (dst : String → String → ℤ)
    (locs : List String) (mode : String) :
    ((runAlgorithm dst locs mode).route.isSome = true ∧
      (runAlgorithm dst locs mode).error = none) ∨
    ((runAlgorithm dst locs mode).route = none ∧
      (runAlgorithm dst locs mode).error.isSome = true) := by
  rw [runAlgorithm]
  by_cases h1 : "Depot" ∈ locs
  · rw [if_pos h1]
    by_cases h2 : mode = "nn" ∨ mode = "nn_2opt"
    · rw [if_pos h2]
      right
      exact ⟨rfl, rfl⟩
    · rw [if_neg h2]
      by_cases h3 : mode = "bf"
      · rw [if_pos h3]
        rcases hsv : solve dst locs ("Depot") with ⟨best, st⟩
        cases best with
        | none =>
          right
          exact ⟨rfl, rfl⟩
        | some rd =>
          obtain ⟨rr, dd⟩ := rd
          left
          exact ⟨rfl, rfl⟩
      · rw [if_neg h3]
        right
        exact ⟨rfl, rfl⟩
  · rw [if_neg h1]
    right
    exact ⟨rfl, rfl⟩

/-- C9: with exactly one location (the depot itself), `solve` does not fail:
the single (empty) permutation yields the closed loop `[start, start]`, and
its total distance is `_distance(start, start)`, which is `0` because the
geodesic distance between identical coordinates is zero. -/
theorem bf_single_location (dst : String → String → ℤ) (start : String)
    (h0 : dst start start = 0) :
    (solve dst [start] start).1 = some ([start, start], 0) := by
  rw [solve, if_pos (List.mem_singleton_self start)]
  have hfilter : ([start].filter fun n => n != start) = [] := by simp
  have hpnil : ([] : List String).permutations' = [[]] := rfl
  rw [hfilter, hpnil, bfLoop, bfLoop]
  simp [bfRouteTotal, bf_distance, h0]

theorem bf_single_location_witness :
    dTwo ("Depot") ("Depot") = 0 ∧
    (solve dTwo ["Depot"] "Depot").1 = some (["Depot", "Depot"], 0) :=
  ⟨by decide, bf_single_location dTwo ("Depot") (by decide)⟩
